import Mathlib

/-!
Verification of the header-normalization and canonical-column resolution
routines of `BiogeneStock.py` (functions `clean_column_name`,
`safe_get_column`, and the `mapping` construction loop).

Python strings are modelled as `List Char` (`PyStr`).  Python's `str.strip`,
`str.lower` and `str.replace` are modelled character-faithfully for the
ASCII range (`str.lower` is modelled by `Char.toLower`, which lowercases the
basic latin letters exactly as CPython does on ASCII input).  A Python
`dict` is modelled as an association list together with an insert operation
that overwrites an existing key in place and appends fresh keys, which is
exactly insertion-ordered `dict` semantics.
-/

/-- A Python string, modelled as its list of characters. -/
abbrev PyStr := List Char

/-- The characters removed by Python's `str.strip`: exactly the code points
for which CPython's `str.isspace` holds (0x09-0x0D, 0x1C-0x1F, 0x20, 0x85,
0xA0, 0x1680, 0x2000-0x200A, 0x2028, 0x2029, 0x202F, 0x205F, 0x3000). -/
def isPySpace (c : Char) : Bool :=
  decide ((9 ≤ c.toNat ∧ c.toNat ≤ 13) ∨ (28 ≤ c.toNat ∧ c.toNat ≤ 32) ∨
    c.toNat = 133 ∨ c.toNat = 160 ∨ c.toNat = 5760 ∨
    (8192 ≤ c.toNat ∧ c.toNat ≤ 8202) ∨ c.toNat = 8232 ∨ c.toNat = 8233 ∨
    c.toNat = 8239 ∨ c.toNat = 8287 ∨ c.toNat = 12288)

/-- Python `s.strip()`: remove leading and trailing whitespace. -/
def pyStrip (s : PyStr) : PyStr :=
  ((s.dropWhile isPySpace).reverse.dropWhile isPySpace).reverse

/-- Python `s.lower()` (ASCII model): lowercase each character. -/
def pyLower (s : PyStr) : PyStr :=
  s.map Char.toLower

/-- Python `s.replace(a, b)` for single characters `a`, `b`: replace every
occurrence of `a` by `b`. -/
def replaceChar (a b : Char) (s : PyStr) : PyStr :=
  s.map (fun c => if c = a then b else c)

/-- Python `s.replace(a, "")` for a single character `a`: delete every
occurrence of `a`. -/
def removeChar (a : Char) (s : PyStr) : PyStr :=
  s.filter (fun c => c ≠ a)

/-- Python `s.replace("  ", " ")`: scan left to right; each non-overlapping
occurrence of two consecutive spaces is replaced by one space. -/
def collapseDoubleSpace : PyStr → PyStr
  | [] => []
  | [c] => [c]
  | c1 :: c2 :: rest =>
    if c1 = ' ' ∧ c2 = ' ' then ' ' :: collapseDoubleSpace rest
    else c1 :: collapseDoubleSpace (c2 :: rest)

/-- `clean_column_name` from `BiogeneStock.py` (lines 23-36):
`str(c).strip().lower().replace("\n", " ").replace("\t", " ")
.replace(".", "").replace("/", " ").replace("-", "_")
.replace("  ", " ").replace(" ", "_")`.
The argument is already a string, so `str(c)` is the identity. -/
def clean_column_name (c : PyStr) : PyStr :=
  replaceChar ' ' '_'
    (collapseDoubleSpace
      (replaceChar '-' '_'
        (replaceChar '/' ' '
          (removeChar '.'
            (replaceChar '\t' ' '
              (replaceChar '\n' ' '
                (pyLower (pyStrip c))))))))

/-- Python's substring test `small in big` on strings: `small` occurs as a
contiguous substring of `big`. -/
def isSubstringOf (small : PyStr) : PyStr → Bool
  | [] => small.isEmpty
  | c :: rest => small.isPrefixOf (c :: rest) || isSubstringOf small rest

/-- Insertion into a Python `dict` modelled as an association list: an
existing key is overwritten in place, a fresh key is appended. -/
def dictInsert (key val : PyStr) : List (PyStr × PyStr) → List (PyStr × PyStr)
  | [] => [(key, val)]
  | (k, v) :: rest =>
    if k = key then (key, val) :: rest else (k, v) :: dictInsert key val rest

/-- Python `d[key]` / `key in d` on the association-list dict: the value at
`key`, or `none` when absent. -/
def dictFind (m : List (PyStr × PyStr)) (key : PyStr) : Option PyStr :=
  (m.find? (fun kv => kv.1 == key)).map (fun kv => kv.2)

/-- The dict comprehension `{clean_column_name(c): c for c in df.columns}`
from `safe_get_column` (line 46): successive insertion, so of two raw
headers with the same normalized key the later one wins. -/
def cleaned_map (cols : List PyStr) : List (PyStr × PyStr) :=
  cols.foldl (fun m c => dictInsert (clean_column_name c) c m) []

/-- `safe_get_column` from `BiogeneStock.py` (lines 38-50).  The dataframe
enters only through its ordered header list `cols`.  Python's
`aliases: list = None` default together with `(aliases or [])` makes
`None` and `[]` behave identically, so `aliases` is modelled as a plain
list.  Candidates are the cleaned target followed by the cleaned aliases;
the first candidate present in `cleaned_map` wins and its stored original
header is returned, else `None`. -/
def safe_get_column (cols : List PyStr) (target : PyStr) (aliases : List PyStr) :
    Option PyStr :=
  let want := clean_column_name target
  let candidates := want :: aliases.map clean_column_name
  let cm := cleaned_map cols
  candidates.findSome? (fun cand => dictFind cm cand)

/-- The `mapping` construction loop from `BiogeneStock.py` (lines 163-168):
`mapping = {}` then, for each `(canon, aliases)` of `expected_aliases` in
order, `found = safe_get_column(df_raw, canon, aliases)` and
`if found: mapping[canon] = found`.  Python truthiness makes both `None`
and the empty string fail the `if found:` test. -/
def mapping_step (cols : List PyStr) (m : List (PyStr × PyStr))
    (f : PyStr × List PyStr) : List (PyStr × PyStr) :=
  match safe_get_column cols f.1 f.2 with
  | some found => if found = [] then m else dictInsert f.1 found m
  | none => m

def mapping (cols : List PyStr) (fields : List (PyStr × List PyStr)) :
    List (PyStr × PyStr) :=
  fields.foldl (mapping_step cols) []

/-- The entry the loop body of `mapping` contributes for one canonical
field: present exactly when `safe_get_column` succeeds with a truthy
(non-empty) header.  Used to characterize `mapping` in the theorems
below. -/
def resolve_entry (cols : List PyStr) (f : PyStr × List PyStr) :
    Option (PyStr × PyStr) :=
  match safe_get_column cols f.1 f.2 with
  | some found => if found = [] then none else some (f.1, found)
  | none => none

/-- Unfolding lemma: looking up in a one-more-entry dict. -/
theorem dictFind_cons (k1 v1 : PyStr) (rest : List (PyStr × PyStr)) (k' : PyStr) :
    dictFind ((k1, v1) :: rest) k' = if k1 = k' then some v1 else dictFind rest k' := by
  by_cases h : k1 = k'
  · simp [dictFind, List.find?, h]
  · have hb : (k1 == k') = false := beq_eq_false_iff_ne.mpr h
    simp [dictFind, List.find?, hb, h]

/-- Looking a key up after a `dictInsert` sees the inserted value at that key
and is otherwise unchanged. -/
theorem dictFind_dictInsert (k v k' : PyStr) :
    ∀ m : List (PyStr × PyStr),
      dictFind (dictInsert k v m) k' = if k = k' then some v else dictFind m k'
  | [] => by
    simp only [dictInsert]
    rw [dictFind_cons]
  | (k1, v1) :: rest => by
    by_cases h1 : k1 = k
    · subst h1
      have he : dictInsert k1 v ((k1, v1) :: rest) = (k1, v) :: rest := by
        simp [dictInsert]
      rw [he, dictFind_cons, dictFind_cons]
      by_cases h : k1 = k' <;> simp [h]
    · simp only [dictInsert, if_neg h1]
      rw [dictFind_cons, dictFind_dictInsert k v k' rest, dictFind_cons]
      by_cases h2 : k1 = k'
      · subst h2
        have hk : k ≠ k1 := fun e => h1 e.symm
        simp [hk]
      · simp [h2]

/-- The lookup built by `cleaned_map` returns, for a normalized key, the
last original header in table order that normalizes to it. -/
theorem cleaned_map_find (k : PyStr) (cols : List PyStr) :
    dictFind (cleaned_map cols) k =
      cols.reverse.find? (fun c => clean_column_name c == k) := by
  induction cols using List.reverseRecOn with
  | nil => simp [cleaned_map, dictFind]
  | append_singleton l a ih =>
    have h1 : cleaned_map (l ++ [a]) =
        dictInsert (clean_column_name a) a (cleaned_map l) := by
      simp [cleaned_map]
    rw [h1, dictFind_dictInsert, List.reverse_append]
    by_cases h : clean_column_name a = k
    · simp [h, List.find?]
    · have hb : (clean_column_name a == k) = false := beq_eq_false_iff_ne.mpr h
      simp only [if_neg h, ih]
      simp [List.find?, hb]

/-- A successful `cleaned_map` lookup returns an original header whose
normalized form is the key looked up. -/
theorem cleaned_map_find_spec {cols : List PyStr} {k r : PyStr}
    (h : dictFind (cleaned_map cols) k = some r) :
    r ∈ cols ∧ clean_column_name r = k := by
  rw [cleaned_map_find] at h
  have h1 := List.find?_some h
  have h2 := List.mem_of_find?_eq_some h
  exact ⟨List.mem_reverse.mp h2, by simpa using h1⟩

/-- Any header of the table makes its own normalized key present in
`cleaned_map`. -/
theorem cleaned_map_find_isSome {cols : List PyStr} {h0 : PyStr}
    (hmem : h0 ∈ cols) :
    (dictFind (cleaned_map cols) (clean_column_name h0)).isSome := by
  rw [cleaned_map_find, List.find?_isSome]
  exact ⟨h0, List.mem_reverse.mpr hmem, by simp⟩

/-- When no candidate normalizes to the key of any header, the resolver
returns `none`. -/
theorem safe_get_column_eq_none_of_no_exact
    {cols : List PyStr} {target : PyStr} {aliases : List PyStr}
    (h : ∀ cand ∈ clean_column_name target :: aliases.map clean_column_name,
      ∀ c ∈ cols, clean_column_name c ≠ cand) :
    safe_get_column cols target aliases = none := by
  unfold safe_get_column
  rw [List.findSome?_eq_none_iff]
  intro cand hcand
  rw [cleaned_map_find, List.find?_eq_none]
  intro c hc
  simp only [beq_iff_eq]
  exact h cand hcand c (List.mem_reverse.mp hc)

/-- `Char.ofNat` at a valid code point has that code point as `toNat`. -/
theorem char_toNat_ofNat_of_valid {n : Nat} (h : n.isValidChar) :
    (Char.ofNat n).toNat = n := by
  unfold Char.ofNat
  rw [dif_pos h]
  rfl

/-- Lowercasing is idempotent per character. -/
theorem char_toLower_toLower (c : Char) : c.toLower.toLower = c.toLower := by
  by_cases h : 65 ≤ c.toNat ∧ c.toNat ≤ 90
  · have h1 : c.toLower = Char.ofNat (c.toNat + 32) := by
      unfold Char.toLower
      rw [if_pos]
      exact ⟨h.1, h.2⟩
    have hv : (c.toNat + 32).isValidChar := Or.inl (by omega)
    have ht : (Char.ofNat (c.toNat + 32)).toNat = c.toNat + 32 :=
      char_toNat_ofNat_of_valid hv
    rw [h1]
    unfold Char.toLower
    rw [if_neg]
    rw [ht]
    omega
  · have h1 : c.toLower = c := by
      unfold Char.toLower
      rw [if_neg]
      exact fun hc => h ⟨hc.1, hc.2⟩
    rw [h1, h1]

/-- Each character is either fixed by lowercasing or its lowercase form is a
basic latin lowercase letter (code point in 97..122). -/
theorem char_toLower_eq_self_or_ascii (c : Char) :
    c.toLower = c ∨ (97 ≤ c.toLower.toNat ∧ c.toLower.toNat ≤ 122) := by
  by_cases h : 65 ≤ c.toNat ∧ c.toNat ≤ 90
  · right
    have h1 : c.toLower = Char.ofNat (c.toNat + 32) := by
      unfold Char.toLower
      rw [if_pos]
      exact ⟨h.1, h.2⟩
    have hv : (c.toNat + 32).isValidChar := Or.inl (by omega)
    rw [h1, char_toNat_ofNat_of_valid hv]
    omega
  · left
    unfold Char.toLower
    rw [if_neg]
    exact fun hc => h ⟨hc.1, hc.2⟩

/-- Basic latin lowercase letters (code points 97..122) are not Python
whitespace. -/
theorem isPySpace_eq_false_of_ascii_lowercase {d : Char}
    (hge : 97 ≤ d.toNat) (hle : d.toNat ≤ 122) : isPySpace d = false := by
  unfold isPySpace
  rw [decide_eq_false_iff_not]
  omega

/-- A character of the output of a single-character replace is the
replacement or an unreplaced original. -/
theorem mem_replaceChar {a b d : Char} {s : PyStr} (h : d ∈ replaceChar a b s) :
    d = b ∨ (d ∈ s ∧ d ≠ a) := by
  unfold replaceChar at h
  rw [List.mem_map] at h
  obtain ⟨c, hc, hd⟩ := h
  by_cases hca : c = a
  · subst hca
    rw [if_pos rfl] at hd
    exact Or.inl hd.symm
  · rw [if_neg hca] at hd
    subst hd
    exact Or.inr ⟨hc, hca⟩

/-- A character surviving a single-character delete was present and is not
the deleted character. -/
theorem mem_removeChar {a d : Char} {s : PyStr} (h : d ∈ removeChar a s) :
    d ∈ s ∧ d ≠ a := by
  unfold removeChar at h
  rw [List.mem_filter] at h
  exact ⟨h.1, by simpa using h.2⟩

/-- Collapsing double spaces introduces no new characters. -/
theorem mem_collapseDoubleSpace :
    ∀ {s : PyStr} {d : Char}, d ∈ collapseDoubleSpace s → d ∈ s
  | [], _, h => by simp [collapseDoubleSpace] at h
  | [c], _, h => by simpa [collapseDoubleSpace] using h
  | c1 :: c2 :: rest, d, h => by
    simp only [collapseDoubleSpace] at h
    split at h
    · rename_i hsp
      rcases List.mem_cons.mp h with h | h
      · simp [h, hsp.1]
      · have := mem_collapseDoubleSpace h
        simp [this]
    · rcases List.mem_cons.mp h with h | h
      · simp [h]
      · have := mem_collapseDoubleSpace h
        rcases List.mem_cons.mp this with h2 | h2 <;> simp [h2]

/-- Stripping only removes characters. -/
theorem mem_pyStrip {d : Char} {s : PyStr} (h : d ∈ pyStrip s) : d ∈ s := by
  unfold pyStrip at h
  rw [List.mem_reverse] at h
  have h2 := List.dropWhile_subset (p := isPySpace)
      (l := (s.dropWhile isPySpace).reverse) h
  rw [List.mem_reverse] at h2
  exact List.dropWhile_subset (p := isPySpace) (l := s) h2

/-- Every character of the normalized form is an underscore, or the
lowercase form of an input character that is none of the characters
rewritten away by the replace chain. -/
theorem clean_column_name_chars (s : PyStr) :
    ∀ d ∈ clean_column_name s,
      d = '_' ∨ ∃ c ∈ s, d = c.toLower ∧ d ≠ ' ' ∧ d ≠ '\t' ∧ d ≠ '\n' ∧
        d ≠ '.' ∧ d ≠ '/' ∧ d ≠ '-' := by
  intro d hd
  unfold clean_column_name at hd
  rcases mem_replaceChar hd with h | ⟨hd, hne_sp⟩
  · exact Or.inl h
  have hd := mem_collapseDoubleSpace hd
  rcases mem_replaceChar hd with h | ⟨hd, hne_dash⟩
  · exact Or.inl h
  rcases mem_replaceChar hd with h | ⟨hd, hne_slash⟩
  · exact absurd h hne_sp
  obtain ⟨hd, hne_dot⟩ := mem_removeChar hd
  rcases mem_replaceChar hd with h | ⟨hd, hne_tab⟩
  · exact absurd h hne_sp
  rcases mem_replaceChar hd with h | ⟨hd, hne_nl⟩
  · exact absurd h hne_sp
  unfold pyLower at hd
  rw [List.mem_map] at hd
  obtain ⟨c, hc, hdc⟩ := hd
  exact Or.inr ⟨c, mem_pyStrip hc, hdc.symm, hne_sp, hne_tab, hne_nl,
    hne_dot, hne_slash, hne_dash⟩

/-- Replacing a character absent from the string changes nothing. -/
theorem replaceChar_eq_self {a b : Char} :
    ∀ {s : PyStr}, (∀ c ∈ s, c ≠ a) → replaceChar a b s = s
  | [], _ => rfl
  | c :: rest, h => by
    unfold replaceChar
    rw [List.map_cons, if_neg (h c (List.mem_cons_self c rest))]
    have hr := replaceChar_eq_self (a := a) (b := b) (s := rest)
      (fun x hx => h x (List.mem_cons_of_mem c hx))
    unfold replaceChar at hr
    rw [hr]

/-- Deleting a character absent from the string changes nothing. -/
theorem removeChar_eq_self {a : Char} {s : PyStr} (h : ∀ c ∈ s, c ≠ a) :
    removeChar a s = s := by
  unfold removeChar
  rw [List.filter_eq_self]
  intro c hc
  simpa using h c hc

/-- Lowercasing a string of lowercase-fixed characters changes nothing. -/
theorem pyLower_eq_self :
    ∀ {s : PyStr}, (∀ c ∈ s, c.toLower = c) → pyLower s = s
  | [], _ => rfl
  | c :: rest, h => by
    unfold pyLower
    rw [List.map_cons, h c (List.mem_cons_self c rest)]
    have hr := pyLower_eq_self (s := rest)
      (fun x hx => h x (List.mem_cons_of_mem c hx))
    unfold pyLower at hr
    rw [hr]

/-- Dropping a prefix of characters none of which satisfies the predicate
changes nothing. -/
theorem dropWhile_eq_self_of_all {p : Char → Bool} :
    ∀ {s : PyStr}, (∀ c ∈ s, p c = false) → s.dropWhile p = s
  | [], _ => rfl
  | c :: rest, h => by
    rw [List.dropWhile_cons_of_neg]
    simp [h c (List.mem_cons_self c rest)]

/-- Stripping a string with no whitespace at all changes nothing. -/
theorem pyStrip_eq_self {s : PyStr} (h : ∀ c ∈ s, isPySpace c = false) :
    pyStrip s = s := by
  unfold pyStrip
  rw [dropWhile_eq_self_of_all h,
      dropWhile_eq_self_of_all (fun c hc => h c (List.mem_reverse.mp hc))]
  exact List.reverse_reverse s

/-- Collapsing double spaces in a space-free string changes nothing. -/
theorem collapseDoubleSpace_eq_self :
    ∀ {s : PyStr}, (∀ c ∈ s, c ≠ ' ') → collapseDoubleSpace s = s
  | [], _ => rfl
  | [_], _ => rfl
  | c1 :: c2 :: rest, h => by
    simp only [collapseDoubleSpace]
    rw [if_neg (fun hc => h c1 (by simp) hc.1),
        collapseDoubleSpace_eq_self (fun c hc => h c (List.mem_cons_of_mem c1 hc))]

/-- Claim C10 (amended): on inputs whose whitespace characters (in
CPython's `str.isspace` sense) are only spaces, tabs and newlines — the
three whitespace characters the replace chain itself eliminates —
normalizing twice equals normalizing once (for such inputs the normalized
form contains no whitespace at all, no `.`, `/`, `-`, and only
lowercase-fixed characters, so every stage of the second pass is the
identity).  Unrestricted idempotence fails: deleting `.` can expose any
other whitespace character (a carriage return, `\x1c`, a no-break space,
...) at an end of the string, which only the second pass strips. -/
theorem clean_column_name_fixed {s : PyStr}
    (h : ∀ c ∈ s, isPySpace c = true → c = ' ' ∨ c = '\t' ∨ c = '\n') :
    clean_column_name (clean_column_name s) = clean_column_name s := by
  have key : ∀ d ∈ clean_column_name s,
      isPySpace d = false ∧ d.toLower = d ∧ d ≠ '.' ∧ d ≠ '/' ∧ d ≠ '-' := by
    intro d hd
    rcases clean_column_name_chars s d hd with rfl |
      ⟨c, hc, rfl, h1, h2, h3, h4, h5, h6⟩
    · exact ⟨by decide, by decide, by decide, by decide, by decide⟩
    · refine ⟨?_, char_toLower_toLower c, h4, h5, h6⟩
      rcases char_toLower_eq_self_or_ascii c with heq | ⟨hge, hle⟩
      · rw [heq]
        rw [heq] at h1 h2 h3
        cases hps : isPySpace c with
        | false => rfl
        | true =>
          rcases h c hc hps with rfl | rfl | rfl
          · exact absurd rfl h1
          · exact absurd rfl h2
          · exact absurd rfl h3
      · exact isPySpace_eq_false_of_ascii_lowercase hge hle
  set y := clean_column_name s with hy
  have hnsp : ∀ d ∈ y, isPySpace d = false := fun d hd => (key d hd).1
  have hlow : ∀ d ∈ y, d.toLower = d := fun d hd => (key d hd).2.1
  have hdot : ∀ d ∈ y, d ≠ '.' := fun d hd => (key d hd).2.2.1
  have hslash : ∀ d ∈ y, d ≠ '/' := fun d hd => (key d hd).2.2.2.1
  have hdash : ∀ d ∈ y, d ≠ '-' := fun d hd => (key d hd).2.2.2.2
  have hsp : ∀ d ∈ y, d ≠ ' ' := fun d hd he => by
    have hx := hnsp d hd
    rw [he] at hx
    exact absurd hx (by decide)
  have htab : ∀ d ∈ y, d ≠ '\t' := fun d hd he => by
    have hx := hnsp d hd
    rw [he] at hx
    exact absurd hx (by decide)
  have hnl : ∀ d ∈ y, d ≠ '\n' := fun d hd he => by
    have hx := hnsp d hd
    rw [he] at hx
    exact absurd hx (by decide)
  show clean_column_name y = y
  unfold clean_column_name
  rw [pyStrip_eq_self hnsp, pyLower_eq_self hlow,
      replaceChar_eq_self hnl, replaceChar_eq_self htab,
      removeChar_eq_self hdot, replaceChar_eq_self hslash,
      replaceChar_eq_self hdash, collapseDoubleSpace_eq_self hsp,
      replaceChar_eq_self hsp]

/-- Inserting a fresh key appends the new entry at the end. -/
theorem dictInsert_of_not_mem {k : PyStr} (v : PyStr) :
    ∀ {m : List (PyStr × PyStr)}, k ∉ m.map Prod.fst →
      dictInsert k v m = m ++ [(k, v)]
  | [], _ => rfl
  | (k1, v1) :: rest, h => by
    rw [List.map_cons, List.mem_cons, not_or] at h
    have h1 : k1 ≠ k := fun e => h.1 e.symm
    simp only [dictInsert, if_neg h1, List.cons_append]
    rw [dictInsert_of_not_mem v h.2]

/-- The key list after a `dictInsert`: unchanged for a present key, the new
key appended for a fresh one. -/
theorem map_fst_dictInsert (k v : PyStr) :
    ∀ m : List (PyStr × PyStr),
      (dictInsert k v m).map Prod.fst =
        if k ∈ m.map Prod.fst then m.map Prod.fst
        else m.map Prod.fst ++ [k]
  | [] => by simp [dictInsert]
  | (k1, v1) :: rest => by
    by_cases h1 : k1 = k
    · subst h1
      simp [dictInsert]
    · simp only [dictInsert, if_neg h1, List.map_cons,
        map_fst_dictInsert k v rest]
      have h1s : k ≠ k1 := fun e => h1 e.symm
      by_cases h2 : k ∈ rest.map Prod.fst
      · simp [h2, List.mem_cons, h1s]
      · simp [h2, List.mem_cons, h1s]

/-- `dictInsert` keeps the keys without duplicates. -/
theorem nodup_map_fst_dictInsert {k v : PyStr} {m : List (PyStr × PyStr)}
    (h : (m.map Prod.fst).Nodup) :
    ((dictInsert k v m).map Prod.fst).Nodup := by
  rw [map_fst_dictInsert]
  by_cases h2 : k ∈ m.map Prod.fst
  · simpa [h2]
  · simp only [if_neg h2]
    rw [List.nodup_append]
    refine ⟨h, List.nodup_singleton k, ?_⟩
    intro a ha hb
    rw [List.mem_singleton] at hb
    exact h2 (hb ▸ ha)

/-- Each fold step of the `mapping` loop keeps the keys without
duplicates. -/
theorem nodup_keys_foldl_mapping_step (cols : List PyStr) :
    ∀ (fields : List (PyStr × List PyStr)) (m : List (PyStr × PyStr)),
      (m.map Prod.fst).Nodup →
      ((fields.foldl (mapping_step cols) m).map Prod.fst).Nodup
  | [], _, h => h
  | f :: rest, m, h => by
    rw [List.foldl_cons]
    apply nodup_keys_foldl_mapping_step cols rest
    cases hsg : safe_get_column cols f.1 f.2 with
    | none => simpa [mapping_step, hsg]
    | some v =>
      by_cases hv : v = []
      · simpa [mapping_step, hsg, hv]
      · simp only [mapping_step, hsg, if_neg hv]
        exact nodup_map_fst_dictInsert h

/-- With pairwise-distinct canonical names (as in a Python dict), the
`mapping` loop run from any accumulator whose keys avoid the remaining
fields appends exactly one entry per successfully resolved field, in field
order. -/
theorem mapping_foldl_eq (cols : List PyStr) :
    ∀ (fields : List (PyStr × List PyStr)) (m : List (PyStr × PyStr)),
      (∀ f ∈ fields, f.1 ∉ m.map Prod.fst) →
      ((fields.map Prod.fst).Nodup) →
      fields.foldl (mapping_step cols) m =
        m ++ fields.filterMap (resolve_entry cols)
  | [], m, _, _ => by simp
  | f :: rest, m, hdisj, hnodup => by
    rw [List.foldl_cons]
    have hnodup_rest : (rest.map Prod.fst).Nodup := by
      rw [List.map_cons] at hnodup
      exact hnodup.of_cons
    have hfst : f.1 ∉ rest.map Prod.fst := by
      rw [List.map_cons] at hnodup
      exact (List.nodup_cons.mp hnodup).1
    cases hsg : safe_get_column cols f.1 f.2 with
    | none =>
      have hstep : mapping_step cols m f = m := by simp [mapping_step, hsg]
      rw [hstep, mapping_foldl_eq cols rest m
        (fun g hg => hdisj g (List.mem_cons_of_mem f hg)) hnodup_rest]
      simp [List.filterMap_cons, resolve_entry, hsg]
    | some v =>
      by_cases hv : v = []
      · have hstep : mapping_step cols m f = m := by
          simp [mapping_step, hsg, hv]
        rw [hstep, mapping_foldl_eq cols rest m
          (fun g hg => hdisj g (List.mem_cons_of_mem f hg)) hnodup_rest]
        simp [List.filterMap_cons, resolve_entry, hsg, hv]
      · have hstep : mapping_step cols m f = m ++ [(f.1, v)] := by
          simp only [mapping_step, hsg, if_neg hv]
          exact dictInsert_of_not_mem v (hdisj f (List.mem_cons_self f rest))
        have hd : ∀ g ∈ rest, g.1 ∉ (m ++ [(f.1, v)]).map Prod.fst := by
          intro g hg
          rw [List.map_append, List.mem_append, not_or]
          refine ⟨hdisj g (List.mem_cons_of_mem f hg), ?_⟩
          simp only [List.map_cons, List.map_nil, List.mem_singleton]
          intro he
          exact hfst (he ▸ List.mem_map_of_mem Prod.fst hg)
        rw [hstep, mapping_foldl_eq cols rest (m ++ [(f.1, v)]) hd hnodup_rest]
        simp [List.filterMap_cons, resolve_entry, hsg, hv]

/-- Claim C1, counterexample: an alias ("item code") normalizes to the same
key as the header "Item Code", yet the resolver returns "Brand" (an earlier
candidate hits a different header first), so the claim "resolve returns h"
fails as universally stated. -/
theorem exact_match_wrong_header_counterexample :
    ("Item Code".toList ∈ ["Brand".toList, "Item Code".toList]) ∧
    ("item code".toList ∈ ["brand".toList, "item code".toList]) ∧
    clean_column_name ("item code".toList) =
      clean_column_name ("Item Code".toList) ∧
    safe_get_column ["Brand".toList, "Item Code".toList] "x".toList
      ["brand".toList, "item code".toList] ≠ some ("Item Code".toList) := by
  decide

/-- Claim C1 (amended): if some candidate (the canonical name or an alias)
normalizes to the same key as a header of the table, the resolver succeeds,
and the header it returns is an exact normalized-key match for some
candidate — though not necessarily the header `h` itself, because the
earliest matching candidate wins and, among headers sharing a key, the
later header wins. -/
theorem safe_get_column_exact_match_found (cols : List PyStr) (target : PyStr)
    (aliases : List PyStr) (h : PyStr) (hmem : h ∈ cols)
    (hcand : ∃ cand ∈ target :: aliases,
      clean_column_name cand = clean_column_name h) :
    ∃ r ∈ cols, safe_get_column cols target aliases = some r ∧
      ∃ cand ∈ target :: aliases,
        clean_column_name cand = clean_column_name r := by
  obtain ⟨cand, hcm, hck⟩ := hcand
  have hunfold : safe_get_column cols target aliases =
      List.findSome? (fun c => dictFind (cleaned_map cols) c)
        (clean_column_name target :: aliases.map clean_column_name) := rfl
  have hkey : clean_column_name cand ∈
      clean_column_name target :: aliases.map clean_column_name := by
    rcases List.mem_cons.mp hcm with rfl | hmem2
    · exact List.mem_cons_self _ _
    · exact List.mem_cons_of_mem _
        (List.mem_map_of_mem clean_column_name hmem2)
  have hsome : (dictFind (cleaned_map cols) (clean_column_name cand)).isSome := by
    rw [hck]
    exact cleaned_map_find_isSome hmem
  have hfs : (List.findSome? (fun c => dictFind (cleaned_map cols) c)
      (clean_column_name target :: aliases.map clean_column_name)).isSome := by
    rw [List.findSome?_isSome_iff]
    exact ⟨_, hkey, hsome⟩
  obtain ⟨r, hr⟩ := Option.isSome_iff_exists.mp hfs
  obtain ⟨a, hamem, hfa⟩ := List.exists_of_findSome?_eq_some hr
  obtain ⟨hrcols, hrk⟩ := cleaned_map_find_spec hfa
  refine ⟨r, hrcols, by rw [hunfold, hr], ?_⟩
  rcases List.mem_cons.mp hamem with rfl | hmem2
  · exact ⟨target, List.mem_cons_self _ _, hrk.symm⟩
  · obtain ⟨al, hal, rfl⟩ := List.mem_map.mp hmem2
    exact ⟨al, List.mem_cons_of_mem _ hal, hrk.symm⟩

/-- Claim C1, witness for the amended theorem at a concrete table. -/
theorem safe_get_column_exact_match_found_witness :
    ∃ r ∈ ["Invoice Date".toList],
      safe_get_column ["Invoice Date".toList] "invoice_date".toList
        ["invoice date".toList] = some r ∧
      ∃ cand ∈ "invoice_date".toList :: ["invoice date".toList],
        clean_column_name cand = clean_column_name r :=
  safe_get_column_exact_match_found _ _ _ ("Invoice Date".toList)
    (by decide) ⟨"invoice date".toList, by decide, by decide⟩

/-- Claim C2, counterexample: the normalized alias "item code" is a strict
substring of the normalized header "Old Item Code Ref", yet the resolver
returns `none` — `safe_get_column` performs no substring pass at all. -/
theorem no_substring_pass_performed :
    isSubstringOf (clean_column_name ("item code".toList))
      (clean_column_name ("Old Item Code Ref".toList)) = true ∧
    safe_get_column ["Old Item Code Ref".toList] "item_code".toList
      ["item code".toList] = none := by decide

/-- Claim C2 (amended): the resolver matches by normalized-key equality
only; when no candidate's key equals any header's key it returns `none`
(there is no substring fallback).  In particular an exact normalized match
is trivially always preferred: with headers "Item Code" and
"Old Item Code Ref", alias "Item Code" resolves to "Item Code". -/
theorem safe_get_column_exact_only :
    (∀ (cols : List PyStr) (target : PyStr) (aliases : List PyStr),
      (∀ cand ∈ clean_column_name target :: aliases.map clean_column_name,
        ∀ c ∈ cols, clean_column_name c ≠ cand) →
      safe_get_column cols target aliases = none) ∧
    safe_get_column ["Item Code".toList, "Old Item Code Ref".toList]
      "item_code".toList ["item code".toList] = some ("Item Code".toList) :=
  ⟨fun _ _ _ h => safe_get_column_eq_none_of_no_exact h, by decide⟩

/-- Claim C2, witness for the amended theorem at a concrete table. -/
theorem safe_get_column_exact_only_witness :
    safe_get_column ["Old Item Code Ref".toList] "item_code".toList
      ["item code".toList] = none :=
  safe_get_column_exact_only.1 _ _ _ (by decide)

/-- Claim C3, counterexample: for the canonical field `invoice_date` with
aliases ["invoice date", "invoice_date"], the header "Invoice Date"
resolves but the header "INVOICE.DATE" does not — the outcomes differ, so
resolution is not invariant across these three spellings. -/
theorem invoice_date_dot_spelling_differs :
    safe_get_column ["Invoice Date".toList] "invoice_date".toList
        ["invoice date".toList, "invoice_date".toList] =
      some ("Invoice Date".toList) ∧
    safe_get_column ["INVOICE.DATE".toList] "invoice_date".toList
        ["invoice date".toList, "invoice_date".toList] = none := by decide

/-- Claim C3 (amended): "Invoice Date" and "invoice_date" both normalize to
"invoice_date" and resolve identically for the invoice-date aliases, but
"INVOICE.DATE" normalizes to "invoicedate" (the period is deleted, not
turned into a separator) and fails to resolve. -/
theorem invoice_date_spellings_resolution :
    clean_column_name ("Invoice Date".toList) = "invoice_date".toList ∧
    clean_column_name ("invoice_date".toList) = "invoice_date".toList ∧
    clean_column_name ("INVOICE.DATE".toList) = "invoicedate".toList ∧
    safe_get_column ["Invoice Date".toList] "invoice_date".toList
        ["invoice date".toList, "invoice_date".toList] =
      some ("Invoice Date".toList) ∧
    safe_get_column ["invoice_date".toList] "invoice_date".toList
        ["invoice date".toList, "invoice_date".toList] =
      some ("invoice_date".toList) ∧
    safe_get_column ["INVOICE.DATE".toList] "invoice_date".toList
        ["invoice date".toList, "invoice_date".toList] = none := by decide

/-- Claim C4: when no candidate's normalized form matches any header's
normalized form exactly or by substring containment in either direction,
the resolver returns `none` (it is total, so it cannot raise, and it
returns no header). -/
theorem safe_get_column_none_of_no_match (cols : List PyStr) (target : PyStr)
    (aliases : List PyStr)
    (h : ∀ cand ∈ target :: aliases, ∀ c ∈ cols,
      clean_column_name c ≠ clean_column_name cand ∧
      isSubstringOf (clean_column_name cand) (clean_column_name c) = false ∧
      isSubstringOf (clean_column_name c) (clean_column_name cand) = false) :
    safe_get_column cols target aliases = none := by
  apply safe_get_column_eq_none_of_no_exact
  intro cand hcand c hc
  rcases List.mem_cons.mp hcand with rfl | hmem
  · exact (h target (List.mem_cons_self _ _) c hc).1
  · obtain ⟨a, ha, rfl⟩ := List.mem_map.mp hmem
    exact (h a (List.mem_cons_of_mem _ ha) c hc).1

/-- Claim C4, witness at a concrete mismatching table. -/
theorem safe_get_column_none_of_no_match_witness :
    safe_get_column ["Brand".toList, "Customer Name".toList]
      "closing_balance".toList ["closing balance".toList] = none :=
  safe_get_column_none_of_no_match _ _ _ (by decide)

/-- Claim C5: with pairwise-distinct canonical names (as produced by a
Python dict of fields), the assembled mapping holds exactly the pairs
`(canon, found)` for which `safe_get_column` resolves that field's aliases
over the same full header list to the truthy header `found`; fields whose
resolve fails are simply absent, and nothing removes a matched header from
the pool, so distinct fields may map to the same header. -/
theorem mem_mapping_iff (cols : List PyStr) (fields : List (PyStr × List PyStr))
    (hnodup : (fields.map Prod.fst).Nodup) (canon found : PyStr) :
    (canon, found) ∈ mapping cols fields ↔
      ∃ al, (canon, al) ∈ fields ∧
        safe_get_column cols canon al = some found ∧ found ≠ [] := by
  unfold mapping
  rw [mapping_foldl_eq cols fields [] (by simp) hnodup]
  rw [List.nil_append, List.mem_filterMap]
  constructor
  · rintro ⟨f, hf, hres⟩
    cases hsg : safe_get_column cols f.1 f.2 with
    | none => simp [resolve_entry, hsg] at hres
    | some v =>
      by_cases hv : v = []
      · simp [resolve_entry, hsg, hv] at hres
      · simp only [resolve_entry, hsg, if_neg hv] at hres
        obtain ⟨h1, h2⟩ := Prod.mk.injEq .. ▸ Option.some.injEq .. ▸ hres
        refine ⟨f.2, ?_, ?_, ?_⟩
        · rwa [← h1, Prod.mk.eta]
        · rw [← h1, ← h2]; exact hsg
        · rw [← h2]; exact hv
  · rintro ⟨al, hal, hsg, hne⟩
    exact ⟨(canon, al), hal, by simp [resolve_entry, hsg, hne]⟩

/-- Claim C5, witness at a concrete table and field list. -/
theorem mem_mapping_iff_witness :
    (("invoice_date".toList, "Invoice Date".toList) ∈
        mapping ["Invoice Date".toList]
          [("invoice_date".toList, ["invoice date".toList])] ↔
      ∃ al, ("invoice_date".toList, al) ∈
          [("invoice_date".toList, ["invoice date".toList])] ∧
        safe_get_column ["Invoice Date".toList] "invoice_date".toList al =
          some ("Invoice Date".toList) ∧ "Invoice Date".toList ≠ []) :=
  mem_mapping_iff _ _ (by decide) _ _

/-- Claim C6, counterexample: two distinct canonical fields both resolve to
the raw header "Invoice Date" inside one mapping, so a raw header is not
claimed by at most one canonical field. -/
theorem mapping_shared_header_counterexample :
    "invoice_date".toList ≠ "bill_date".toList ∧
    ("invoice_date".toList, "Invoice Date".toList) ∈
      mapping ["Invoice Date".toList]
        [("invoice_date".toList, ["invoice date".toList]),
         ("bill_date".toList, ["invoice date".toList])] ∧
    ("bill_date".toList, "Invoice Date".toList) ∈
      mapping ["Invoice Date".toList]
        [("invoice_date".toList, ["invoice date".toList]),
         ("bill_date".toList, ["invoice date".toList])] := by decide

/-- Claim C6 (amended): a produced mapping is a function on canonical
fields — its key list is always duplicate-free, so each canonical field
maps to at most one raw header — but a raw header may be claimed by
several canonical fields. -/
theorem mapping_keys_functional :
    (∀ (cols : List PyStr) (fields : List (PyStr × List PyStr)),
      ((mapping cols fields).map Prod.fst).Nodup) ∧
    ∃ (cols : List PyStr) (fields : List (PyStr × List PyStr))
      (c1 c2 hshared : PyStr), c1 ≠ c2 ∧
        (c1, hshared) ∈ mapping cols fields ∧
        (c2, hshared) ∈ mapping cols fields := by
  constructor
  · intro cols fields
    unfold mapping
    exact nodup_keys_foldl_mapping_step cols fields [] (by simp)
  · exact ⟨["Invoice Date".toList],
      [("invoice_date".toList, ["invoice date".toList]),
       ("bill_date".toList, ["invoice date".toList])],
      "invoice_date".toList, "bill_date".toList, "Invoice Date".toList,
      by decide, by decide, by decide⟩

/-- Claim C7, counterexample: with an empty alias list the canonical name
itself still matches, so the resolver does not always return `none`. -/
theorem empty_aliases_still_resolves :
    safe_get_column ["Brand".toList] "brand".toList [] =
      some ("Brand".toList) := by decide

/-- Claim C7 (amended): with an empty alias list the canonical name is the
only candidate: the resolver returns `none` exactly when no header
normalizes to the canonical name's key. -/
theorem safe_get_column_empty_aliases_iff (cols : List PyStr) (target : PyStr) :
    safe_get_column cols target [] = none ↔
      ∀ c ∈ cols, clean_column_name c ≠ clean_column_name target := by
  have hunfold : safe_get_column cols target [] =
      dictFind (cleaned_map cols) (clean_column_name target) := by
    show List.findSome? (fun c => dictFind (cleaned_map cols) c)
      [clean_column_name target] = _
    cases hf : dictFind (cleaned_map cols) (clean_column_name target) with
    | none => simp [List.findSome?, hf]
    | some v => simp [List.findSome?, hf]
  rw [hunfold, cleaned_map_find, List.find?_eq_none]
  constructor
  · intro h c hc
    have := h c (List.mem_reverse.mpr hc)
    simpa using this
  · intro h c hc
    simpa using h c (List.mem_reverse.mp hc)

/-- Claim C8: if table headers are `pre ++ h1 :: mid ++ h2 :: post` where
`h1` and `h2` normalize to the same key, no later header shares that key,
and the canonical name matches that key, the resolver returns the later
duplicate `h2` — in building `cleaned_map`, the later header in iteration
order silently wins. -/
theorem safe_get_column_later_duplicate_wins
    (pre mid post aliases : List PyStr) (h1 h2 target : PyStr)
    (hk : clean_column_name h2 = clean_column_name h1)
    (ht : clean_column_name target = clean_column_name h1)
    (hpost : ∀ c ∈ post, clean_column_name c ≠ clean_column_name h1) :
    safe_get_column (pre ++ h1 :: (mid ++ h2 :: post)) target aliases =
      some h2 := by
  have hunfold : safe_get_column (pre ++ h1 :: (mid ++ h2 :: post)) target
      aliases =
      List.findSome?
        (fun c => dictFind (cleaned_map (pre ++ h1 :: (mid ++ h2 :: post))) c)
        (clean_column_name target :: aliases.map clean_column_name) := rfl
  have hfind : dictFind (cleaned_map (pre ++ h1 :: (mid ++ h2 :: post)))
      (clean_column_name target) = some h2 := by
    rw [cleaned_map_find, ht]
    have hrev : (pre ++ h1 :: (mid ++ h2 :: post)).reverse =
        post.reverse ++ h2 :: (mid.reverse ++ h1 :: pre.reverse) := by
      simp
    rw [hrev, List.find?_append]
    have hnone : post.reverse.find?
        (fun c => clean_column_name c == clean_column_name h1) = none := by
      rw [List.find?_eq_none]
      intro c hc
      simpa using hpost c (List.mem_reverse.mp hc)
    rw [hnone, Option.none_or, List.find?_cons_of_pos]
    simpa using hk
  rw [hunfold, List.findSome?_cons_of_isSome]
  · exact hfind
  · rw [hfind]
    rfl

/-- Claim C8, witness: headers "A B" and "A-B" share the key "a_b"; the
later header "A-B" is returned. -/
theorem safe_get_column_later_duplicate_wins_witness :
    safe_get_column ["A B".toList, "A-B".toList] "a b".toList [] =
      some ("A-B".toList) :=
  safe_get_column_later_duplicate_wins [] [] [] [] ("A B".toList)
    ("A-B".toList) ("a b".toList) (by decide) (by decide)
    (fun c hc => absurd hc (List.not_mem_nil c))

/-- Claim C9: resolution is deterministic and extensional — equal inputs
give equal mappings and equal resolver answers (the embedding of both
functions is pure and total, mirroring that the Python code reads only its
arguments and writes no external state). -/
theorem resolution_deterministic (cols cols' : List PyStr)
    (fields fields' : List (PyStr × List PyStr))
    (h1 : cols = cols') (h2 : fields = fields') :
    mapping cols fields = mapping cols' fields' ∧
    ∀ (target : PyStr) (aliases : List PyStr),
      safe_get_column cols target aliases =
        safe_get_column cols' target aliases := by
  subst h1
  subst h2
  exact ⟨rfl, fun _ _ => rfl⟩

/-- Claim C9, witness: calling `mapping` twice on identical inputs yields
the identical result. -/
theorem resolution_deterministic_witness :
    mapping ["Invoice Date".toList]
        [("invoice_date".toList, ["invoice date".toList])] =
      mapping ["Invoice Date".toList]
        [("invoice_date".toList, ["invoice date".toList])] ∧
    ∀ (target : PyStr) (aliases : List PyStr),
      safe_get_column ["Invoice Date".toList] target aliases =
        safe_get_column ["Invoice Date".toList] target aliases :=
  resolution_deterministic _ _ _ _ rfl rfl

/-- Claim C10, counterexample: `clean_column_name` is not idempotent — on
"a\r." (and likewise "a\x1c." and "a\xa0.") the first pass deletes the
period and leaves a trailing strippable whitespace character ("a\r"),
which only the second pass strips (giving "a"). -/
theorem clean_column_name_not_idempotent :
    clean_column_name (clean_column_name ("a\r.".toList)) ≠
      clean_column_name ("a\r.".toList) ∧
    clean_column_name (clean_column_name ("a\x1c.".toList)) ≠
      clean_column_name ("a\x1c.".toList) ∧
    clean_column_name (clean_column_name ("a\xa0.".toList)) ≠
      clean_column_name ("a\xa0.".toList) := by decide

/-- Claim C10, witness for the amended idempotence theorem. -/
theorem clean_column_name_fixed_witness :
    clean_column_name (clean_column_name ("Invoice Date".toList)) =
      clean_column_name ("Invoice Date".toList) :=
  clean_column_name_fixed (by decide)

